import Mathlib

/-!
Shallow embedding of `src/index.js` of the `code-quality-linter` repository.

The linter scans each line of a text against a fixed list of regex rules
(`LINT_RULES`), producing `Issue`s with 1-based line/column positions
(`lintFile`), computes a line-based complexity score (`calculateComplexity`),
classifies it for reporting (`complexityMessage`), walks input paths feeding
files to the matcher (the `lint` CLI action, modelled by `runPaths`), and
derives the run's exit code from the count of error-severity issues
(`lintRunExit`).

Texts are modelled as `String` (converted to `List Char` internally, matching
JavaScript's per-code-unit view for the ASCII/BMP texts involved).  Each
regular-expression literal of the source is translated into an explicit
matcher function (`... MatchAt`), whose semantics — leftmost match at or after
a start position, greedy quantifiers over disjoint character classes, JS
`\b` / `\s` / `\w` / `.` character semantics — is spelled out next to it.
The JS `while ((match = regex.exec(line)) !== null)` loop is modelled by the
fuel-indexed `execAll`, which faithfully reproduces `exec`'s `lastIndex`
behaviour, including its non-advance after a zero-width match.
-/

/-! ### Character classes (JavaScript regex semantics) -/

/-- JS regex `\w`: `[A-Za-z0-9_]`. -/
def isWordChar (c : Char) : Bool :=
  c.isAlphanum || c = '_'

/-- JS regex `\s`: whitespace, including no-break space, the Unicode
space separators, and the byte-order mark. -/
def isJsSpace (c : Char) : Bool :=
  c = ' ' || c = '\t' || c = '\n' || c = '\r' || c = '\x0b' || c = '\x0c' ||
  c = '\u00a0' || c = '\u1680' ||
  (0x2000 ≤ c.toNat && c.toNat ≤ 0x200a) ||
  c = '\u2028' || c = '\u2029' || c = '\u202f' || c = '\u205f' ||
  c = '\u3000' || c = '\ufeff'

/-- JS line terminators: `\n`, `\r`, U+2028, U+2029 (what multiline `$`
looks ahead for, and what `.` refuses to match). -/
def isLineTerm (c : Char) : Bool :=
  c = '\n' || c = '\r' || c = '\u2028' || c = '\u2029'

/-- JS regex `.` without the `s` flag: any character but a line terminator. -/
def isDotChar (c : Char) : Bool :=
  !(isLineTerm c)

/-! ### Low-level scanning helpers -/

/-- Length of the maximal prefix of `cs` whose characters satisfy `pred`
(the text consumed by a greedy `X*` / `X+` over the class `pred`). -/
def countWhile (pred : Char → Bool) : List Char → Nat
  | [] => 0
  | c :: cs => if pred c then countWhile pred cs + 1 else 0

/-- The literal `lit` occurs in `cs` starting at position `p`. -/
def litAt (lit : List Char) (cs : List Char) (p : Nat) : Bool :=
  lit.isPrefixOf (cs.drop p)

/-- The character just before position `p` is a word character
(used for `\b` where the following atom starts with a word character:
the boundary holds iff this is false). -/
def prevIsWord (cs : List Char) : Nat → Bool
  | 0 => false
  | q + 1 => (cs.get? q).any isWordChar

/-! ### The twelve rule patterns of `LINT_RULES`, one matcher each

Each `...MatchAt cs p` decides whether the pattern matches in `cs`
anchored exactly at position `p`, returning the length of the match
(the length regex backtracking would produce).  All quantified
sub-patterns here are greedy runs over character classes that are
disjoint from the following literal's first character, so the greedy
run length is exact and no backtracking is needed — except for
`\s+$`, treated explicitly below. -/

/-- `/\bvar\s+\w+/g` anchored at `p`. -/
def varMatchAt (cs : List Char) (p : Nat) : Option Nat :=
  if prevIsWord cs p then none
  else if litAt ['v', 'a', 'r'] cs p then
    let s := countWhile isJsSpace (cs.drop (p + 3))
    if s = 0 then none
    else
      let w := countWhile isWordChar (cs.drop (p + 3 + s))
      if w = 0 then none else some (3 + s + w)
  else none

/-- `/console\.(log|debug|info)\(/g` anchored at `p` (the three
alternatives start with pairwise distinct characters, so at most one
can apply). -/
def consoleMatchAt (cs : List Char) (p : Nat) : Option Nat :=
  if litAt "console.".toList cs p then
    if litAt "log(".toList cs (p + 8) then some 12
    else if litAt "debug(".toList cs (p + 8) then some 14
    else if litAt "info(".toList cs (p + 8) then some 13
    else none
  else none

/-- `/TODO|FIXME|HACK:/g` anchored at `p` (the `:` binds to `HACK` only;
the alternatives start with pairwise distinct characters). -/
def todoMatchAt (cs : List Char) (p : Nat) : Option Nat :=
  if litAt "TODO".toList cs p then some 4
  else if litAt "FIXME".toList cs p then some 5
  else if litAt "HACK:".toList cs p then some 5
  else none

/-- `/==(?!=)/g` anchored at `p`: two `=` not followed by a third. -/
def eqeqMatchAt (cs : List Char) (p : Nat) : Option Nat :=
  if litAt "==".toList cs p && !((cs.get? (p + 2)).any (· = '=')) then some 2
  else none

/-- `/new\s+Array\(/g` anchored at `p`. -/
def newArrayMatchAt (cs : List Char) (p : Nat) : Option Nat :=
  if litAt "new".toList cs p then
    let s := countWhile isJsSpace (cs.drop (p + 3))
    if s = 0 then none
    else if litAt "Array(".toList cs (p + 3 + s) then some (3 + s + 6)
    else none
  else none

/-- `/throw\s+new\s+Error/g` anchored at `p`. -/
def throwErrMatchAt (cs : List Char) (p : Nat) : Option Nat :=
  if litAt "throw".toList cs p then
    let s := countWhile isJsSpace (cs.drop (p + 5))
    if s = 0 then none
    else if litAt "new".toList cs (p + 5 + s) then
      let t := countWhile isJsSpace (cs.drop (p + 5 + s + 3))
      if t = 0 then none
      else if litAt "Error".toList cs (p + 5 + s + 3 + t) then
        some (5 + s + 3 + t + 5)
      else none
    else none
  else none

/-- `/except\s*:/g` anchored at `p` (the `:` is not `\s`, so it must sit
right after the maximal space run). -/
def exceptColonMatchAt (cs : List Char) (p : Nat) : Option Nat :=
  if litAt "except".toList cs p then
    let s := countWhile isJsSpace (cs.drop (p + 6))
    if litAt ":".toList cs (p + 6 + s) then some (6 + s + 1) else none
  else none

/-- `/print\s*\(/g` anchored at `p`. -/
def printCallMatchAt (cs : List Char) (p : Nat) : Option Nat :=
  if litAt "print".toList cs p then
    let s := countWhile isJsSpace (cs.drop (p + 5))
    if litAt "(".toList cs (p + 5 + s) then some (5 + s + 1) else none
  else none

/-- `/from\s+\w+\s+import\s+\*/g` anchored at `p`. -/
def wildcardImportMatchAt (cs : List Char) (p : Nat) : Option Nat :=
  if litAt "from".toList cs p then
    let s := countWhile isJsSpace (cs.drop (p + 4))
    if s = 0 then none
    else
      let w := countWhile isWordChar (cs.drop (p + 4 + s))
      if w = 0 then none
      else
        let t := countWhile isJsSpace (cs.drop (p + 4 + s + w))
        if t = 0 then none
        else if litAt "import".toList cs (p + 4 + s + w + t) then
          let u := countWhile isJsSpace (cs.drop (p + 4 + s + w + t + 6))
          if u = 0 then none
          else if litAt "*".toList cs (p + 4 + s + w + t + 6 + u) then
            some (4 + s + w + t + 6 + u + 1)
          else none
        else none
  else none

/-- `/.{120,}/g` anchored at `p`: the greedy run of `.`-characters, if it
is at least 120 long. -/
def longLineMatchAt (cs : List Char) (p : Nat) : Option Nat :=
  let r := countWhile isDotChar (cs.drop p)
  if 120 ≤ r then some r else none

/-- Multiline `$` holds at position `q`: end of input, or a line
terminator next. -/
def dollarAt (cs : List Char) (q : Nat) : Bool :=
  q = cs.length || (cs.get? q).any isLineTerm

/-- Largest `k ∈ [1, bound]` with `dollarAt cs (p + k)` — the backtracking
search of greedy `\s+` followed by multiline `$`. -/
def bestDollarK (cs : List Char) (p : Nat) : Nat → Option Nat
  | 0 => none
  | k + 1 => if dollarAt cs (p + k + 1) then some (k + 1) else bestDollarK cs p k

/-- `/\s+$/gm` anchored at `p`: a nonempty space run ending at end of input
or just before a line terminator (every line terminator is itself `\s`,
so the run is a prefix of the maximal space run at `p`). -/
def trailingWsMatchAt (cs : List Char) (p : Nat) : Option Nat :=
  bestDollarK cs p (countWhile isJsSpace (cs.drop p))

/-- `/\t/g` anchored at `p`. -/
def tabMatchAt (cs : List Char) (p : Nat) : Option Nat :=
  if cs.get? p = some '\t' then some 1 else none

/-! ### exec: leftmost search and the multi-match loop -/

/-- Try `m` at `p`, `p+1`, … for at most `steps` positions; first hit wins.
Returns the match position and length. -/
def findAux (m : List Char → Nat → Option Nat) (cs : List Char) :
    Nat → Nat → Option (Nat × Nat)
  | _, 0 => none
  | p, steps + 1 =>
    match m cs p with
    | some l => some (p, l)
    | none => findAux m cs (p + 1) steps

/-- Leftmost match of `m` in `cs` at a position in `[p, cs.length]` — the
search performed by `regex.exec` when `regex.lastIndex = p` (a fresh regex has
`lastIndex = 0`; `exec` returns `null` once `lastIndex` exceeds the length). -/
def findFrom (m : List Char → Nat → Option Nat) (cs : List Char) (p : Nat) :
    Option (Nat × Nat) :=
  findAux m cs p (cs.length + 1 - p)

/-- The JS loop (src/index.js lines 62–72)

    let match;
    const regex = new RegExp(rule.pattern.source, rule.pattern.flags);
    while ((match = regex.exec(line)) !== null) { issues.push({... match.index ...}) }

as a fuel-indexed function: each `exec` returns the leftmost match from
`lastIndex` and then sets `lastIndex = match.index + match.length` — in
particular a zero-width match leaves `lastIndex` where the match began.
`none` means the loop has not finished within `fuel` iterations. -/
def execAll (find : List Char → Nat → Option (Nat × Nat)) (cs : List Char) :
    Nat → Nat → Option (List (Nat × Nat))
  | _, 0 => none
  | pos, fuel + 1 =>
    match find cs pos with
    | none => some []
    | some (i, l) => (execAll find cs (i + l) fuel).map (fun ms => (i, l) :: ms)

/-- `exec`-search of a pattern that matches the empty string at every
position (e.g. `/(?:)/g`, or `/z*/g` on text containing no `z`):
the leftmost match from `lastIndex = p` is the empty match at `p` itself. -/
def emptyStarFind (cs : List Char) (p : Nat) : Option (Nat × Nat) :=
  if p ≤ cs.length then some (p, 0) else none

/-! ### Severity, Issue, Rule, and the built-in rule list -/

/-- The three severities of the source (`'error' | 'warning' | 'info'`). -/
inductive Severity where
  | error
  | warning
  | info
deriving DecidableEq, Repr

/-- One reported finding, mirroring the object pushed in `lintFile`:
`{ file, line, issue, severity, column }` with 1-based `line`/`column`. -/
structure Issue where
  file : String
  line : Nat
  issue : String
  severity : Severity
  column : Nat
deriving DecidableEq, Repr

/-- One entry of `LINT_RULES`: optional language list, the pattern
(embedded as its `exec`-search function: leftmost match at or after a
given position), message and severity. -/
structure Rule where
  lang : Option (List String)
  pattern : List Char → Nat → Option (Nat × Nat)
  issue : String
  severity : Severity

/-- The built-in rule list `LINT_RULES` (src/index.js lines 26–42),
in registration order. -/
def LINT_RULES : List Rule := [
  { lang := some ["js", "ts", "jsx", "tsx"], pattern := findFrom varMatchAt,
    issue := "Use \"let\" or \"const\" instead of \"var\"", severity := .warning },
  { lang := some ["js", "ts", "jsx", "tsx"], pattern := findFrom consoleMatchAt,
    issue := "Remove debug statements", severity := .warning },
  { lang := some ["js", "ts", "jsx", "tsx"], pattern := findFrom todoMatchAt,
    issue := "TODO/FIXME comment found", severity := .info },
  { lang := some ["js", "ts", "jsx", "tsx"], pattern := findFrom eqeqMatchAt,
    issue := "Use === instead of ==", severity := .warning },
  { lang := some ["js", "ts", "jsx", "tsx"], pattern := findFrom newArrayMatchAt,
    issue := "Use array literal []", severity := .info },
  { lang := some ["js", "ts", "jsx", "tsx"], pattern := findFrom throwErrMatchAt,
    issue := "Just \"throw Error\" is enough", severity := .info },
  { lang := some ["py"], pattern := findFrom exceptColonMatchAt,
    issue := "Use \"except Exception:\"", severity := .warning },
  { lang := some ["py"], pattern := findFrom printCallMatchAt,
    issue := "Consider using logging", severity := .info },
  { lang := some ["py"], pattern := findFrom wildcardImportMatchAt,
    issue := "Avoid wildcard imports", severity := .warning },
  { lang := none, pattern := findFrom longLineMatchAt,
    issue := "Line exceeds 120 characters", severity := .info },
  { lang := none, pattern := findFrom trailingWsMatchAt,
    issue := "Trailing whitespace", severity := .info },
  { lang := none, pattern := findFrom tabMatchAt,
    issue := "Use spaces instead of tabs", severity := .warning }]

/-! ### getExtension and lintFile -/

/-- JS `String.prototype.split` with a single-character separator:
`"".split(sep) = [""]`, empty segments kept. -/
def splitOnChar (sep : Char) : List Char → List (List Char)
  | [] => [[]]
  | c :: cs =>
    if c = sep then [] :: splitOnChar sep cs
    else
      match splitOnChar sep cs with
      | [] => [[c]]
      | l :: ls => (c :: l) :: ls

/-- Character-wise lower-casing (JS `toLowerCase`; identical on the ASCII
identifiers involved here). -/
def toLowerChars (cs : List Char) : List Char :=
  cs.map Char.toLower

/-- `getExtension` (src/index.js lines 44–46):
`filePath.split('.').pop().toLowerCase()` — the last `.`-separated
segment, lower-cased.  A path with no `.` yields the whole path. -/
def getExtension (filePath : String) : List Char :=
  toLowerChars ((splitOnChar '.' filePath.data).getLastD [])

/-- The language guard of the rule loop (src/index.js line 59):
`if (rule.lang && !rule.lang.includes(ext)) continue;`. -/
def applicableRule (rule : Rule) (ext : List Char) : Bool :=
  match rule.lang with
  | none => true
  | some langs => langs.contains (String.mk ext)

/-- All issues one rule contributes on one line: the matches of the
fresh-regex `exec` loop, in order, each at column `match.index + 1`.
(The fuel `line.length + 1` is enough for every built-in rule, whose
patterns only match nonempty substrings — `execAll_sufficient` below;
the `getD` default is never taken for them.) -/
def scanRule (rule : Rule) (fp : String) (lineNum : Nat) (line : List Char) :
    List Issue :=
  ((execAll rule.pattern line 0 (line.length + 1)).getD []).map fun m =>
    { file := fp, line := lineNum, issue := rule.issue,
      severity := rule.severity, column := m.1 + 1 }

/-- The inner rule loop of `lintFile` on one line, in registration order. -/
def scanLine (rules : List Rule) (fp : String) (ext : List Char)
    (lineNum : Nat) (line : List Char) : List Issue :=
  rules.flatMap fun rule =>
    if applicableRule rule ext then scanRule rule fp lineNum line else []

/-- The outer line loop of `lintFile`: line numbers count up from
`lineNum`, issues in line order. -/
def lintLines (rules : List Rule) (fp : String) (ext : List Char) :
    Nat → List (List Char) → List Issue
  | _, [] => []
  | lineNum, line :: rest =>
    scanLine rules fp ext lineNum line ++
      lintLines rules fp ext (lineNum + 1) rest

/-- `lintFile` generalized over the rule list (the source closes over the
global `LINT_RULES`; tests inject other lists through this parameter). -/
def lintFileWith (rules : List Rule) (filePath content : String) : List Issue :=
  lintLines rules filePath (getExtension filePath) 1
    (splitOnChar '\n' content.data)

/-- `lintFile` (src/index.js lines 48–77): split on `'\n'`, scan each line
with every applicable rule of `LINT_RULES`. -/
def lintFile (filePath content : String) : List Issue :=
  lintFileWith LINT_RULES filePath content

/-! ### calculateComplexity and its report classification -/

/-- `/\bif\b|\bfor\b|\bwhile\b|\bswitch\b|\bcatch\b|\bcase\b/`:
keyword alternatives in source order, each with word boundaries on both
sides, anchored at `p`. -/
def keywordMatchAt (cs : List Char) (p : Nat) : Option Nat :=
  (["if", "for", "while", "switch", "catch", "case"].find? fun kw =>
      !prevIsWord cs p && litAt kw.toList cs p &&
        !((cs.get? (p + kw.length)).any isWordChar)).map String.length

/-- `calculateComplexity` (src/index.js lines 79–90): start at 1; for each
line, add 1 if the branching-keyword regex tests true on it. -/
def calculateComplexity (content : String) : Nat :=
  (splitOnChar '\n' content.data).foldl
    (fun c line => if (findFrom keywordMatchAt line 0).isSome then c + 1 else c) 1

/-- The classification printed by the `complexity` action
(src/index.js lines 192–198): `< 10` low, else `< 20` moderate, else high. -/
def complexityMessage (complexity : Nat) : String :=
  if complexity < 10 then "✅ Low complexity - easy to understand"
  else if complexity < 20 then "⚠️  Moderate complexity - consider refactoring"
  else "❌ High complexity - needs refactoring"

/-! ### The lint action: traversal, aggregation, exit code -/

/-- A filesystem node: a regular file with its content, or a directory
with its entry names (in `readdirSync` order). -/
inductive FsNode where
  | file (content : String)
  | dir (entries : List String)

/-- A filesystem snapshot.  `none` models a path whose `statSync` (or
read) throws — vanished file, permission error. -/
def Fs : Type := String → Option FsNode

/-- Traversal failure: the JS exceptions escaping the `lint` action
(it installs no handler), plus fuel exhaustion of the model's
directory recursion (unreachable on any finite filesystem given
enough fuel). -/
inductive LintErr where
  | statFailed (path : String)
  | outOfFuel
deriving DecidableEq, Repr

/-- The inner `lintDir` DFS (src/index.js lines 114–128) as a worklist:
a directory prepends its children (joined as `dir ++ "/" ++ item`), a file
is read and linted, a failing `statSync` throws — aborting everything.
Returns collected issues and the number of files linted. -/
def lintDirGo (fs : Fs) : Nat → List String → Except LintErr (List Issue × Nat)
  | 0, [] => .ok ([], 0)
  | 0, _ :: _ => .error .outOfFuel
  | _ + 1, [] => .ok ([], 0)
  | fuel + 1, full :: rest =>
    match fs full with
    | none => .error (.statFailed full)
    | some (FsNode.dir entries) =>
      lintDirGo fs fuel (entries.map (fun item => full ++ "/" ++ item) ++ rest)
    | some (FsNode.file content) =>
      match lintDirGo fs fuel rest with
      | .error e => .error e
      | .ok (b, n) => .ok (lintFile full content ++ b, n + 1)

/-- The path loop of the `lint` action (src/index.js lines 109–135):
`statSync` each input path (throwing on failure — nothing catches it);
recurse into a directory only when `recursive` is set (otherwise the
directory silently yields nothing); read and lint a file.  Returns all
issues in traversal order and `filesLinted`. -/
def runPaths (fs : Fs) (recursive : Bool) (fuel : Nat) :
    List String → Except LintErr (List Issue × Nat)
  | [] => .ok ([], 0)
  | p :: rest =>
    match fs p with
    | none => .error (.statFailed p)
    | some (FsNode.dir entries) =>
      if recursive then
        match lintDirGo fs fuel (entries.map (fun item => p ++ "/" ++ item)) with
        | .error e => .error e
        | .ok (a, m) =>
          match runPaths fs recursive fuel rest with
          | .error e => .error e
          | .ok (b, n) => .ok (a ++ b, m + n)
      else runPaths fs recursive fuel rest
    | some (FsNode.file content) =>
      match runPaths fs recursive fuel rest with
      | .error e => .error e
      | .ok (b, n) => .ok (lintFile p content ++ b, n + 1)

/-- Number of error-severity issues (`bySeverity.error` of
src/index.js lines 138–141). -/
def countErrorIssues (issues : List Issue) : Nat :=
  issues.countP fun i => i.severity == Severity.error

/-- Completion signal of the `lint` action: an uncaught traversal
exception aborts the run (`.error`); otherwise the exit code is `1` iff
`bySeverity.error > 0` (src/index.js lines 174–176) and `0` otherwise. -/
def lintRunExit (fs : Fs) (recursive : Bool) (fuel : Nat)
    (paths : List String) : Except LintErr Nat :=
  match runPaths fs recursive fuel paths with
  | .error e => .error e
  | .ok (issues, _) => .ok (if 0 < countErrorIssues issues then 1 else 0)

/-- The issue stream of the `pr` action (src/index.js lines 230–243):
files without a patch are skipped, each patch is linted under its
filename. -/
def prIssues (files : List (String × Option String)) : List Issue :=
  files.flatMap fun f =>
    match f.2 with
    | none => []
    | some patch => lintFile f.1 patch

/-- Completion signal of the `pr` action once the file list was fetched:
the action prints a summary and returns — it contains no issue-dependent
`process.exit`, so it always completes with code 0. -/
def prRunExit (files : List (String × Option String)) : Nat :=
  let _ := prIssues files
  0

/-! ### Spec-side definitions (for refinement statements)

These follow the wording of the specification, to be compared against
the source-derived definitions above. -/

/-- Spec wording: `kw` occurs in `cs` at `p` as a whole word — the
characters of `kw` occur at `p` and neither neighbour is a word
character (substrings inside longer identifiers do not count). -/
def wholeWordAt (kw : List Char) (cs : List Char) (p : Nat) : Bool :=
  kw.isPrefixOf (cs.drop p) &&
  !(match p with
    | 0 => false
    | q + 1 => (cs.get? q).any isWordChar) &&
  !((cs.get? (p + kw.length)).any isWordChar)

/-- The branching keywords of the complexity score, per the spec. -/
def branchKeywords : List (List Char) :=
  ["if".toList, "for".toList, "while".toList, "switch".toList,
   "catch".toList, "case".toList]

/-- Spec wording: the line contains at least one whole-word occurrence of
a branching keyword. -/
def lineHasBranchKw (cs : List Char) : Bool :=
  (List.range (cs.length + 1)).any fun p =>
    branchKeywords.any fun kw => wholeWordAt kw cs p

/-! ### Further definitions used by the proofs -/

/-- Anchored-matcher soundness: every match is nonempty and ends inside
the text. -/
def MSound (m : List Char → Nat → Option Nat) : Prop :=
  ∀ cs p l, m cs p = some l → 1 ≤ l ∧ p + l ≤ cs.length

/-- `exec`-search soundness: every pattern whose anchored matcher is
sound yields matches at or after the start, nonempty, inside the text. -/
def SoundFind (find : List Char → Nat → Option (Nat × Nat)) : Prop :=
  ∀ cs p i l, find cs p = some (i, l) → p ≤ i ∧ 1 ≤ l ∧ i + l ≤ cs.length

/-- Registration index of a rule message in `LINT_RULES`. -/
def ruleIdx (msg : String) : Nat :=
  (LINT_RULES.map Rule.issue).indexOf msg

/-- The order `lintFile` emits issues in: increasing line; within a
line, rule registration order; within one rule, increasing column. -/
def IssueOrder (a b : Issue) : Prop :=
  a.line < b.line ∨ (a.line = b.line ∧ (ruleIdx a.issue < ruleIdx b.issue ∨
    (ruleIdx a.issue = ruleIdx b.issue ∧ a.column < b.column)))

/-! ### Concrete objects used by claim witnesses and counterexamples -/

/-- The single issue the var-usage rule reports at line 1, column 1. -/
def varIssue (fp : String) : Issue :=
  { file := fp, line := 1, issue := "Use \"let\" or \"const\" instead of \"var\"",
    severity := Severity.warning, column := 1 }

/-- The single issue the tab rule reports at line 1, column 1. -/
def tabIssue (fp : String) : Issue :=
  { file := fp, line := 1, issue := "Use spaces instead of tabs",
    severity := Severity.warning, column := 1 }

/-- A tiny filesystem: one readable JavaScript file; every other path
fails `statSync`. -/
def fs0 : Fs := fun p =>
  if p = "a.js" then some (FsNode.file "var x = 1;") else none

/-! ### Basic bounds -/

/-- Greedy runs never exceed the text. -/
theorem countWhile_le (pred : Char → Bool) : ∀ l : List Char, countWhile pred l ≤ l.length
  | [] => by simp [countWhile]
  | c :: cs => by
    simp only [countWhile, List.length_cons]
    split
    · exact Nat.succ_le_succ (countWhile_le pred cs)
    · exact Nat.zero_le _

/-- A greedy run starting at `q` stays inside the text. -/
theorem countWhile_drop_le (pred : Char → Bool) (cs : List Char) (q : Nat)
    (h : q ≤ cs.length) : q + countWhile pred (cs.drop q) ≤ cs.length := by
  have h1 := countWhile_le pred (cs.drop q)
  rw [List.length_drop] at h1
  omega

/-- A nonempty literal matching at `p` ends inside the text. -/
theorem litAt_bound {lit cs : List Char} {p : Nat}
    (h : litAt lit cs p = true) (hl : 0 < lit.length) : p + lit.length ≤ cs.length := by
  have h1 : lit <+: cs.drop p := by
    simpa [litAt, List.isPrefixOf_iff_prefix] using h
  have h2 := h1.length_le
  rw [List.length_drop] at h2
  omega

theorem varMatchAt_sound : MSound varMatchAt := by
  intro cs p l h
  simp only [varMatchAt] at h
  split_ifs at h with h1 h2 h3 h4 <;> simp at h
  have hb : p + 3 ≤ cs.length := by simpa using litAt_bound h2 (by simp)
  have c1 := countWhile_drop_le isJsSpace cs (p + 3) (by omega)
  have c2 := countWhile_drop_le isWordChar cs
    (p + 3 + countWhile isJsSpace (cs.drop (p + 3))) (by omega)
  omega

theorem consoleMatchAt_sound : MSound consoleMatchAt := by
  intro cs p l h
  simp only [consoleMatchAt] at h
  split_ifs at h with h1 h2 h3 h4 <;> simp at h
  · have hb : p + 8 + 4 ≤ cs.length := by simpa using litAt_bound h2 (by simp)
    omega
  · have hb : p + 8 + 6 ≤ cs.length := by simpa using litAt_bound h3 (by simp)
    omega
  · have hb : p + 8 + 5 ≤ cs.length := by simpa using litAt_bound h4 (by simp)
    omega

theorem todoMatchAt_sound : MSound todoMatchAt := by
  intro cs p l h
  simp only [todoMatchAt] at h
  split_ifs at h with h1 h2 h3 <;> simp at h
  · have hb : p + 4 ≤ cs.length := by simpa using litAt_bound h1 (by simp)
    omega
  · have hb : p + 5 ≤ cs.length := by simpa using litAt_bound h2 (by simp)
    omega
  · have hb : p + 5 ≤ cs.length := by simpa using litAt_bound h3 (by simp)
    omega

theorem eqeqMatchAt_sound : MSound eqeqMatchAt := by
  intro cs p l h
  simp only [eqeqMatchAt] at h
  split_ifs at h with h1 <;> simp at h
  have hb : p + 2 ≤ cs.length := by
    simpa using litAt_bound (And.left (by simpa using h1)) (by simp)
  omega

theorem newArrayMatchAt_sound : MSound newArrayMatchAt := by
  intro cs p l h
  simp only [newArrayMatchAt] at h
  split_ifs at h with h1 h2 h3 <;> simp at h
  have hb : p + 3 + countWhile isJsSpace (cs.drop (p + 3)) + 6 ≤ cs.length := by
    simpa using litAt_bound h3 (by simp)
  omega

theorem throwErrMatchAt_sound : MSound throwErrMatchAt := by
  intro cs p l h
  simp only [throwErrMatchAt] at h
  split_ifs at h with h1 h2 h3 h4 h5 <;> simp at h
  have hb : p + 5 + countWhile isJsSpace (cs.drop (p + 5)) + 3 +
      countWhile isJsSpace
        (cs.drop (p + 5 + countWhile isJsSpace (cs.drop (p + 5)) + 3)) + 5 ≤
      cs.length := by
    simpa using litAt_bound h5 (by simp)
  omega

theorem exceptColonMatchAt_sound : MSound exceptColonMatchAt := by
  intro cs p l h
  simp only [exceptColonMatchAt] at h
  split_ifs at h with h1 h2 <;> simp at h
  have hb : p + 6 + countWhile isJsSpace (cs.drop (p + 6)) + 1 ≤ cs.length := by
    simpa using litAt_bound h2 (by simp)
  omega

theorem printCallMatchAt_sound : MSound printCallMatchAt := by
  intro cs p l h
  simp only [printCallMatchAt] at h
  split_ifs at h with h1 h2 <;> simp at h
  have hb : p + 5 + countWhile isJsSpace (cs.drop (p + 5)) + 1 ≤ cs.length := by
    simpa using litAt_bound h2 (by simp)
  omega

theorem wildcardImportMatchAt_sound : MSound wildcardImportMatchAt := by
  intro cs p l h
  simp only [wildcardImportMatchAt] at h
  split_ifs at h with h1 h2 h3 h4 h5 h6 h7 <;> simp at h
  have hb : p + 4 + countWhile isJsSpace (cs.drop (p + 4)) +
      countWhile isWordChar
        (cs.drop (p + 4 + countWhile isJsSpace (cs.drop (p + 4)))) +
      countWhile isJsSpace
        (cs.drop (p + 4 + countWhile isJsSpace (cs.drop (p + 4)) +
          countWhile isWordChar
            (cs.drop (p + 4 + countWhile isJsSpace (cs.drop (p + 4)))))) + 6 +
      countWhile isJsSpace
        (cs.drop (p + 4 + countWhile isJsSpace (cs.drop (p + 4)) +
          countWhile isWordChar
            (cs.drop (p + 4 + countWhile isJsSpace (cs.drop (p + 4)))) +
          countWhile isJsSpace
            (cs.drop (p + 4 + countWhile isJsSpace (cs.drop (p + 4)) +
              countWhile isWordChar
                (cs.drop (p + 4 + countWhile isJsSpace (cs.drop (p + 4)))))) + 6)) +
      1 ≤ cs.length := by
    simpa using litAt_bound h7 (by simp)
  omega

theorem longLineMatchAt_sound : MSound longLineMatchAt := by
  intro cs p l h
  simp only [longLineMatchAt] at h
  split_ifs at h with h1 <;> simp at h
  by_cases hp : p ≤ cs.length
  · have := countWhile_drop_le isDotChar cs p hp
    omega
  · rw [List.drop_eq_nil_of_le (by omega)] at h1 h
    simp [countWhile] at h1

theorem bestDollarK_sound (cs : List Char) (p : Nat) :
    ∀ bound k, bestDollarK cs p bound = some k → 1 ≤ k ∧ k ≤ bound := by
  intro bound
  induction bound with
  | zero => intro k h; simp [bestDollarK] at h
  | succ n ih =>
    intro k h
    simp only [bestDollarK] at h
    split_ifs at h with h1
    · simp at h; omega
    · have := ih k h; omega

theorem trailingWsMatchAt_sound : MSound trailingWsMatchAt := by
  intro cs p l h
  simp only [trailingWsMatchAt] at h
  have hk := bestDollarK_sound cs p _ l h
  by_cases hp : p ≤ cs.length
  · have := countWhile_drop_le isJsSpace cs p hp
    omega
  · rw [List.drop_eq_nil_of_le (by omega)] at h
    simp [countWhile, bestDollarK] at h

theorem tabMatchAt_sound : MSound tabMatchAt := by
  intro cs p l h
  simp only [tabMatchAt] at h
  split_ifs at h with h1 <;> simp at h
  have : p < cs.length := by
    by_contra hc
    rw [List.get?_eq_none.mpr (by omega)] at h1
    simp at h1
  omega

/-! ### Soundness of the leftmost search and the exec loop -/

/-- A successful bounded search found a genuine match at or after `p`. -/
theorem findAux_sound (m : List Char → Nat → Option Nat) (cs : List Char) :
    ∀ steps p i l, findAux m cs p steps = some (i, l) → p ≤ i ∧ m cs i = some l := by
  intro steps
  induction steps with
  | zero => intro p i l h; simp [findAux] at h
  | succ n ih =>
    intro p i l h
    cases hm : m cs p with
    | some l' =>
      simp only [findAux, hm] at h
      obtain ⟨rfl, rfl⟩ : p = i ∧ l' = l := by
        constructor <;> [exact congrArg Prod.fst (Option.some.inj h);
          exact congrArg Prod.snd (Option.some.inj h)]
      exact ⟨Nat.le_refl _, hm⟩
    | none =>
      simp only [findAux, hm] at h
      obtain ⟨h1, h2⟩ := ih (p + 1) i l h
      exact ⟨by omega, h2⟩

/-- The bounded search succeeds exactly when a match exists in the
searched window. -/
theorem findAux_isSome (m : List Char → Nat → Option Nat) (cs : List Char) :
    ∀ steps p, (findAux m cs p steps).isSome = true ↔
      ∃ q, p ≤ q ∧ q < p + steps ∧ (m cs q).isSome = true := by
  intro steps
  induction steps with
  | zero =>
    intro p
    simp only [findAux, Option.isSome_none, Bool.false_eq_true, false_iff]
    rintro ⟨q, hq1, hq2, _⟩
    omega
  | succ n ih =>
    intro p
    cases hm : m cs p with
    | some l' =>
      simp only [findAux, hm]
      exact ⟨fun _ => ⟨p, Nat.le_refl _, by omega, by simp [hm]⟩, fun _ => rfl⟩
    | none =>
      simp only [findAux, hm, ih (p + 1)]
      constructor
      · rintro ⟨q, hq1, hq2, hq3⟩
        exact ⟨q, by omega, by omega, hq3⟩
      · rintro ⟨q, hq1, hq2, hq3⟩
        refine ⟨q, ?_, by omega, hq3⟩
        rcases Nat.eq_or_lt_of_le hq1 with rfl | h'
        · rw [hm] at hq3; simp at hq3
        · omega

theorem findFrom_soundFind {m : List Char → Nat → Option Nat} (hm : MSound m) :
    SoundFind (findFrom m) := by
  intro cs p i l h
  obtain ⟨h1, h2⟩ := findAux_sound m cs _ p i l h
  obtain ⟨h3, h4⟩ := hm cs i l h2
  exact ⟨h1, h3, h4⟩

/-- Every built-in rule's pattern is a sound `exec`-search. -/
theorem LINT_RULES_sound : ∀ r ∈ LINT_RULES, SoundFind r.pattern := by
  intro r hr
  simp only [LINT_RULES, List.mem_cons, List.not_mem_nil, or_false] at hr
  rcases hr with rfl | rfl | rfl | rfl | rfl | rfl | rfl | rfl | rfl | rfl | rfl | rfl
  · exact findFrom_soundFind varMatchAt_sound
  · exact findFrom_soundFind consoleMatchAt_sound
  · exact findFrom_soundFind todoMatchAt_sound
  · exact findFrom_soundFind eqeqMatchAt_sound
  · exact findFrom_soundFind newArrayMatchAt_sound
  · exact findFrom_soundFind throwErrMatchAt_sound
  · exact findFrom_soundFind exceptColonMatchAt_sound
  · exact findFrom_soundFind printCallMatchAt_sound
  · exact findFrom_soundFind wildcardImportMatchAt_sound
  · exact findFrom_soundFind longLineMatchAt_sound
  · exact findFrom_soundFind trailingWsMatchAt_sound
  · exact findFrom_soundFind tabMatchAt_sound

/-- For a sound search the exec loop terminates within `text length + 1`
iterations (each match consumes at least one character), and its match
list is position-sound and strictly advancing. -/
theorem execAll_sound (find : List Char → Nat → Option (Nat × Nat)) (cs : List Char)
    (hf : ∀ p i l, find cs p = some (i, l) → p ≤ i ∧ 1 ≤ l ∧ i + l ≤ cs.length) :
    ∀ fuel pos, pos ≤ cs.length → cs.length + 1 ≤ pos + fuel →
    ∃ ms, execAll find cs pos fuel = some ms ∧
      (∀ m ∈ ms, pos ≤ m.1 ∧ 1 ≤ m.2 ∧ m.1 + m.2 ≤ cs.length) ∧
      List.Pairwise (fun a b : Nat × Nat => a.1 + a.2 ≤ b.1) ms := by
  intro fuel
  induction fuel with
  | zero => intro pos h1 h2; omega
  | succ n ih =>
    intro pos h1 h2
    cases hfind : find cs pos with
    | none => exact ⟨[], by simp [execAll, hfind], by simp, by simp⟩
    | some m =>
      obtain ⟨i, l⟩ := m
      obtain ⟨hpi, hl, hil⟩ := hf pos i l hfind
      obtain ⟨ms, hms, hmem, hpw⟩ := ih (i + l) (by omega) (by omega)
      refine ⟨(i, l) :: ms, by simp [execAll, hfind, hms], ?_, ?_⟩
      · intro m hm
        rcases List.mem_cons.mp hm with rfl | hm
        · exact ⟨hpi, hl, hil⟩
        · have := hmem m hm
          exact ⟨by omega, this.2.1, this.2.2⟩
      · exact List.pairwise_cons.mpr ⟨fun b hb => (hmem b hb).1, hpw⟩

/-! ### Facts about scanRule / scanLine / lintLines -/

/-- Fields of an issue contributed by one rule on one line. -/
theorem mem_scanRule_fields {r : Rule} {fp : String} {n : Nat} {line : List Char}
    {is : Issue} (h : is ∈ scanRule r fp n line) :
    is.file = fp ∧ is.line = n ∧ is.issue = r.issue ∧ is.severity = r.severity := by
  simp only [scanRule, List.mem_map] at h
  obtain ⟨m, _, rfl⟩ := h
  exact ⟨rfl, rfl, rfl, rfl⟩

/-- For a sound pattern, every issue's column is 1-based and inside the
line. -/
theorem mem_scanRule_column {r : Rule} (hr : SoundFind r.pattern)
    {fp : String} {n : Nat} {line : List Char} {is : Issue}
    (h : is ∈ scanRule r fp n line) : 1 ≤ is.column ∧ is.column ≤ line.length := by
  obtain ⟨ms, hms, hmem, _⟩ := execAll_sound r.pattern line
    (fun p i l => hr line p i l) (line.length + 1) 0 (by omega) (by omega)
  simp only [scanRule, hms, Option.getD_some, List.mem_map] at h
  obtain ⟨m, hm, rfl⟩ := h
  have hb := hmem m hm
  show 1 ≤ m.1 + 1 ∧ m.1 + 1 ≤ line.length
  omega

/-- For a sound pattern, one rule's issues on one line have strictly
increasing columns (matches are non-overlapping, left to right). -/
theorem scanRule_pairwise {r : Rule} (hr : SoundFind r.pattern)
    (fp : String) (n : Nat) (line : List Char) :
    List.Pairwise (fun a b : Issue => a.column < b.column) (scanRule r fp n line) := by
  obtain ⟨ms, hms, hmem, hpw⟩ := execAll_sound r.pattern line
    (fun p i l => hr line p i l) (line.length + 1) 0 (by omega) (by omega)
  simp only [scanRule, hms, Option.getD_some]
  rw [List.pairwise_map]
  refine hpw.imp_of_mem ?_
  intro a b ha _ hab
  have h1 := hmem a ha
  show a.1 + 1 < b.1 + 1
  omega

/-- Every issue of a line scan comes from an applicable rule. -/
theorem mem_scanLine {rules : List Rule} {fp : String} {ext : List Char}
    {n : Nat} {line : List Char} {is : Issue}
    (h : is ∈ scanLine rules fp ext n line) :
    ∃ r ∈ rules, applicableRule r ext = true ∧ is ∈ scanRule r fp n line := by
  simp only [scanLine, List.mem_flatMap] at h
  obtain ⟨r, hr, hmem⟩ := h
  by_cases ha : applicableRule r ext
  · rw [if_pos ha] at hmem
    exact ⟨r, hr, ha, hmem⟩
  · rw [if_neg ha] at hmem
    simp at hmem

/-- Issues of a line scan carry that line's number. -/
theorem mem_scanLine_line {rules : List Rule} {fp : String} {ext : List Char}
    {n : Nat} {line : List Char} {is : Issue}
    (h : is ∈ scanLine rules fp ext n line) : is.line = n := by
  obtain ⟨r, _, _, hmem⟩ := mem_scanLine h
  exact (mem_scanRule_fields hmem).2.1

/-- Every issue of the line loop comes from the scan of the line its
`line` field points at. -/
theorem mem_lintLines {rules : List Rule} {fp : String} {ext : List Char} :
    ∀ {k : Nat} {ls : List (List Char)} {is : Issue},
      is ∈ lintLines rules fp ext k ls →
      ∃ j, j < ls.length ∧ is ∈ scanLine rules fp ext (k + j) (ls.getD j []) := by
  intro k ls
  induction ls generalizing k with
  | nil => intro is h; simp [lintLines] at h
  | cons line rest ih =>
    intro is h
    simp only [lintLines, List.mem_append] at h
    rcases h with h | h
    · exact ⟨0, by simp, by simpa using h⟩
    · obtain ⟨j, hj, hmem⟩ := ih (k := k + 1) h
      refine ⟨j + 1, by simpa using hj, ?_⟩
      have e : k + 1 + j = k + (j + 1) := by omega
      rw [e] at hmem
      simpa using hmem

/-- The line loop is compositional: scanning a concatenation of line
blocks is scanning each block with shifted starting line numbers — no
matcher state crosses from one line to the next. -/
theorem lintLines_append (rules : List Rule) (fp : String) (ext : List Char) :
    ∀ (k : Nat) (ls1 ls2 : List (List Char)),
      lintLines rules fp ext k (ls1 ++ ls2) =
        lintLines rules fp ext k ls1 ++ lintLines rules fp ext (k + ls1.length) ls2 := by
  intro k ls1
  induction ls1 generalizing k with
  | nil => intro ls2; simp [lintLines]
  | cons l ls ih =>
    intro ls2
    rw [List.cons_append]
    simp only [lintLines, List.length_cons]
    rw [ih (k + 1), List.append_assoc]
    have e : k + 1 + ls.length = k + (ls.length + 1) := by omega
    rw [e]

/-! ### Output ordering -/

/-- The messages of `LINT_RULES` are pairwise distinct, so the
registration index is strictly monotone along the list. -/
theorem LINT_RULES_ruleIdx_mono :
    List.Pairwise (fun r1 r2 => ruleIdx r1.issue < ruleIdx r2.issue) LINT_RULES := by
  decide

/-- A line scan emits issues in `IssueOrder` provided the rules are
sound and listed in strictly increasing registration index. -/
theorem scanLine_pairwise {rules : List Rule}
    (hsound : ∀ r ∈ rules, SoundFind r.pattern)
    (hmono : List.Pairwise (fun r1 r2 => ruleIdx r1.issue < ruleIdx r2.issue) rules)
    (fp : String) (ext : List Char) (n : Nat) (line : List Char) :
    List.Pairwise IssueOrder (scanLine rules fp ext n line) := by
  induction rules with
  | nil => simp [scanLine]
  | cons r rs ih =>
    obtain ⟨hmono1, hmono2⟩ := List.pairwise_cons.mp hmono
    simp only [scanLine, List.flatMap_cons]
    rw [List.pairwise_append]
    refine ⟨?_, ?_, ?_⟩
    · by_cases ha : applicableRule r ext
      · rw [if_pos ha]
        refine (scanRule_pairwise (hsound r (by simp)) fp n line).imp_of_mem ?_
        intro a b ham hbm hab
        obtain ⟨_, hla, hia, _⟩ := mem_scanRule_fields ham
        obtain ⟨_, hlb, hib, _⟩ := mem_scanRule_fields hbm
        exact Or.inr ⟨hla.trans hlb.symm, Or.inr ⟨by rw [hia, hib], hab⟩⟩
      · rw [if_neg ha]; simp
    · exact ih (fun r' hr' => hsound r' (List.mem_cons_of_mem _ hr')) hmono2
    · intro a ha b hb
      have ham : a ∈ scanRule r fp n line := by
        by_cases happ : applicableRule r ext
        · rwa [if_pos happ] at ha
        · rw [if_neg happ] at ha; simp at ha
      obtain ⟨r', hr', _, hbm⟩ := mem_scanLine (by simpa [scanLine] using hb)
      obtain ⟨_, hla, hia, _⟩ := mem_scanRule_fields ham
      obtain ⟨_, hlb, hib, _⟩ := mem_scanRule_fields hbm
      exact Or.inr ⟨hla.trans hlb.symm, Or.inl (by rw [hia, hib]; exact hmono1 r' hr')⟩

/-- The whole line loop emits issues in `IssueOrder`. -/
theorem lintLines_pairwise {rules : List Rule}
    (hsound : ∀ r ∈ rules, SoundFind r.pattern)
    (hmono : List.Pairwise (fun r1 r2 => ruleIdx r1.issue < ruleIdx r2.issue) rules)
    (fp : String) (ext : List Char) :
    ∀ (k : Nat) (ls : List (List Char)),
      List.Pairwise IssueOrder (lintLines rules fp ext k ls) := by
  intro k ls
  induction ls generalizing k with
  | nil => simp [lintLines]
  | cons line rest ih =>
    simp only [lintLines]
    rw [List.pairwise_append]
    refine ⟨scanLine_pairwise hsound hmono fp ext k line, ih (k + 1), ?_⟩
    intro a ha b hb
    have hla : a.line = k := mem_scanLine_line ha
    obtain ⟨j, _, hbm⟩ := mem_lintLines hb
    have hlb : b.line = k + 1 + j := mem_scanLine_line hbm
    exact Or.inl (by omega)

/-! ### Shared helper lemmas for the claims -/

/-- Every issue of a scan comes from a rule of the list that is
applicable to the unit's language identifier, and copies that rule's
message and severity. -/
theorem mem_lintFileWith_rule {rules : List Rule} {fp content : String} {is : Issue}
    (h : is ∈ lintFileWith rules fp content) :
    ∃ r ∈ rules, applicableRule r (getExtension fp) = true ∧
      is.file = fp ∧ is.issue = r.issue ∧ is.severity = r.severity := by
  simp only [lintFileWith] at h
  obtain ⟨j, _, hmem⟩ := mem_lintLines h
  obtain ⟨r, hr, happ, hsr⟩ := mem_scanLine hmem
  obtain ⟨hf, _, hi, hs⟩ := mem_scanRule_fields hsr
  exact ⟨r, hr, happ, hf, hi, hs⟩

/-- No built-in rule carries the `error` severity, so no scan output does. -/
theorem lintFile_severity {fp content : String} {is : Issue}
    (h : is ∈ lintFile fp content) : is.severity ≠ Severity.error := by
  obtain ⟨r, hr, _, _, _, hs⟩ := mem_lintFileWith_rule h
  rw [hs]
  have hall : ∀ r' ∈ LINT_RULES, r'.severity ≠ Severity.error := by decide
  exact hall r hr

/-- Splitting at a character that does not occur returns the whole text
as the single segment. -/
theorem splitOnChar_of_not_mem {sep : Char} :
    ∀ {cs : List Char}, sep ∉ cs → splitOnChar sep cs = [cs]
  | [], _ => rfl
  | c :: cs, h => by
    have h1 : ¬(c = sep) := fun e => h (e ▸ List.mem_cons_self c cs)
    have h2 : sep ∉ cs := fun m => h (List.mem_cons_of_mem _ m)
    simp [splitOnChar, h1, splitOnChar_of_not_mem h2]

/-- Folding the per-line increment is adding the count of matching lines. -/
theorem foldl_count_aux (pred : List Char → Bool) :
    ∀ (ls : List (List Char)) (n : Nat),
      ls.foldl (fun c line => if pred line then c + 1 else c) n = n + ls.countP pred := by
  intro ls
  induction ls with
  | nil => intro n; simp
  | cons l ls ih =>
    intro n
    simp only [List.foldl_cons, List.countP_cons, ih]
    split_ifs with h <;> omega

/-- The spec-side whole-word test agrees with the word-boundary matcher
conditions used by `keywordMatchAt`. -/
theorem wholeWordAt_eq (kw : String) (cs : List Char) (p : Nat) :
    wholeWordAt kw.toList cs p =
      (!prevIsWord cs p && litAt kw.toList cs p &&
        !((cs.get? (p + kw.length)).any isWordChar)) := by
  show (kw.toList.isPrefixOf (cs.drop p) && !prevIsWord cs p &&
      !((cs.get? (p + kw.length)).any isWordChar)) = _
  rw [Bool.and_comm (kw.toList.isPrefixOf (cs.drop p)) (!prevIsWord cs p)]
  rfl

/-- The branching-keyword regex tests true on a line exactly when the
line has a whole-word branching keyword (the spec-side reading). -/
theorem keywordTest_eq (line : List Char) :
    (findFrom keywordMatchAt line 0).isSome = lineHasBranchKw line := by
  rw [Bool.eq_iff_iff, findFrom, findAux_isSome]
  simp only [lineHasBranchKw, List.any_eq_true, List.mem_range]
  constructor
  · rintro ⟨q, _, hq2, hq3⟩
    refine ⟨q, by omega, ?_⟩
    simp only [keywordMatchAt, Option.isSome_map', List.find?_isSome,
      List.mem_cons, List.not_mem_nil, or_false] at hq3
    obtain ⟨kw, hkw, hp⟩ := hq3
    refine ⟨kw.toList, ?_, ?_⟩
    · rcases hkw with rfl | rfl | rfl | rfl | rfl | rfl <;> simp [branchKeywords]
    · rw [wholeWordAt_eq]
      exact hp
  · rintro ⟨p, hp1, kw', hkw', hww⟩
    refine ⟨p, by omega, by omega, ?_⟩
    simp only [branchKeywords, List.mem_cons, List.not_mem_nil, or_false] at hkw'
    simp only [keywordMatchAt, Option.isSome_map', List.find?_isSome,
      List.mem_cons, List.not_mem_nil, or_false]
    rcases hkw' with rfl | rfl | rfl | rfl | rfl | rfl
    · exact ⟨"if", Or.inl rfl, by rw [← wholeWordAt_eq]; exact hww⟩
    · exact ⟨"for", Or.inr (Or.inl rfl), by rw [← wholeWordAt_eq]; exact hww⟩
    · exact ⟨"while", Or.inr (Or.inr (Or.inl rfl)), by rw [← wholeWordAt_eq]; exact hww⟩
    · exact ⟨"switch", Or.inr (Or.inr (Or.inr (Or.inl rfl))),
        by rw [← wholeWordAt_eq]; exact hww⟩
    · exact ⟨"catch", Or.inr (Or.inr (Or.inr (Or.inr (Or.inl rfl)))),
        by rw [← wholeWordAt_eq]; exact hww⟩
    · exact ⟨"case", Or.inr (Or.inr (Or.inr (Or.inr (Or.inr rfl)))),
        by rw [← wholeWordAt_eq]; exact hww⟩

/-- The complexity score is 1 plus the number of lines with a whole-word
branching keyword. -/
theorem calculateComplexity_eq (content : String) :
    calculateComplexity content =
      1 + (splitOnChar '\n' content.data).countP lineHasBranchKw := by
  unfold calculateComplexity
  rw [foldl_count_aux (fun line => (findFrom keywordMatchAt line 0).isSome)]
  have e : (fun line => (findFrom keywordMatchAt line 0).isSome) = lineHasBranchKw :=
    funext keywordTest_eq
  rw [e]

/-! ### The claims -/

/-- C1: the claim demands that after an empty-width match the scan
position advance by at least one character so that the loop terminates.
The code's `exec` loop does not advance `lastIndex` after a zero-width
match, so for a rule pattern matching the empty string (e.g. `/z*/g` on
the line `"b"`) the loop never finishes: for every amount of fuel the
fuel-indexed loop is still running.  (Each built-in rule only matches
nonempty substrings, so the shipped rule set never triggers this.) -/
theorem c1_empty_match_loop :
    (∀ (cs : List Char) (fuel : Nat), execAll emptyStarFind cs 0 fuel = none) ∧
    emptyStarFind "b".toList 0 = some (0, 0) := by
  refine ⟨fun cs fuel => ?_, rfl⟩
  induction fuel with
  | zero => rfl
  | succ n ih => simp [execAll, emptyStarFind, ih]

/-- C5: the complexity score equals 1 plus the number of lines containing
at least one whole-word branching keyword of
if / for / while / switch / catch / case (one increment per line); the
empty text scores 1, and the one-line text with two `if`s scores 2. -/
theorem c5_complexity_score :
    (∀ content : String,
      calculateComplexity content =
        1 + (splitOnChar '\n' content.data).countP lineHasBranchKw) ∧
    calculateComplexity "" = 1 ∧
    calculateComplexity "if (a) \x7b if (b) \x7b\x7d \x7d\n" = 2 :=
  ⟨calculateComplexity_eq, by decide, by decide⟩

/-- C6: the reported classification is low for score < 10, moderate for
10 ≤ score < 20, and high for score ≥ 20; in particular 9 is low, 10 and
19 moderate, 20 high. -/
theorem c6_complexity_classification :
    (∀ s : Nat,
      (complexityMessage s = "✅ Low complexity - easy to understand" ↔ s < 10) ∧
      (complexityMessage s = "⚠️  Moderate complexity - consider refactoring" ↔
        10 ≤ s ∧ s < 20) ∧
      (complexityMessage s = "❌ High complexity - needs refactoring" ↔ 20 ≤ s)) ∧
    complexityMessage 9 = "✅ Low complexity - easy to understand" ∧
    complexityMessage 10 = "⚠️  Moderate complexity - consider refactoring" ∧
    complexityMessage 19 = "⚠️  Moderate complexity - consider refactoring" ∧
    complexityMessage 20 = "❌ High complexity - needs refactoring" := by
  refine ⟨fun s => ?_, by decide, by decide, by decide, by decide⟩
  unfold complexityMessage
  split_ifs with h1 h2 <;> simp <;> omega

/-- C7: scanning `"var x = 1;\n"` as a unit with extension `js` against
the built-in rule set yields exactly one Issue, at line 1, column 1,
with severity warning. -/
theorem c7_var_unit :
    lintFile "a.js" "var x = 1;\n" = [varIssue "a.js"] := by
  decide

/-- C9: scanning identical input twice yields identical issue sequences,
and a line scan is a function of the line alone — scanning a
concatenation of line blocks is the concatenation of their scans (with
shifted line numbers), so no matcher cursor state persists across lines,
files, or calls. -/
theorem c9_deterministic :
    (∀ fp content : String, lintFile fp content = lintFile fp content) ∧
    (∀ (rules : List Rule) (fp : String) (ext : List Char) (k : Nat)
        (ls1 ls2 : List (List Char)),
      lintLines rules fp ext k (ls1 ++ ls2) =
        lintLines rules fp ext k ls1 ++ lintLines rules fp ext (k + ls1.length) ls2) :=
  ⟨fun _ _ => rfl, lintLines_append⟩

/-- C8: a rule yields an Issue only for units whose language identifier
its scope admits — every issue of a scan is traceable to a rule of the
list that is universal (no language list) or lists the unit's language
identifier; in particular a rule whose scope excludes the identifier
never produces an issue. -/
theorem c8_language_scope (rules : List Rule) (fp content : String) (is : Issue)
    (h : is ∈ lintFileWith rules fp content) :
    ∃ r ∈ rules,
      (r.lang = none ∨ ∃ langs, r.lang = some langs ∧
        String.mk (getExtension fp) ∈ langs) ∧
      is.issue = r.issue ∧ is.severity = r.severity := by
  obtain ⟨r, hr, happ, _, hi, hs⟩ := mem_lintFileWith_rule h
  refine ⟨r, hr, ?_, hi, hs⟩
  unfold applicableRule at happ
  cases hl : r.lang with
  | none => exact Or.inl rfl
  | some langs =>
    rw [hl] at happ
    exact Or.inr ⟨langs, rfl, by simpa [List.contains] using happ⟩

/-- Witness for C8 at a concrete scan. -/
theorem c8_language_scope_witness :
    ∃ r ∈ LINT_RULES,
      (r.lang = none ∨ ∃ langs, r.lang = some langs ∧
        String.mk (getExtension "a.js") ∈ langs) ∧
      (varIssue "a.js").issue = r.issue ∧ (varIssue "a.js").severity = r.severity :=
  c8_language_scope LINT_RULES "a.js" "var x = 1;" (varIssue "a.js") (by decide)

/-- C10: every issue's position is sound — `line` between 1 and the
number of newline-separated lines, `column` between 1 and the length of
that line — and the issue sequence is emitted in nondecreasing line
order, same-line issues in rule registration order, and issues of one
rule on one line in strictly increasing column order. -/
theorem c10_position_invariant (fp content : String) :
    (∀ is ∈ lintFile fp content,
      1 ≤ is.line ∧ is.line ≤ (splitOnChar '\n' content.data).length ∧
      1 ≤ is.column ∧
      is.column ≤ ((splitOnChar '\n' content.data).getD (is.line - 1) []).length) ∧
    List.Pairwise IssueOrder (lintFile fp content) := by
  constructor
  · intro is h
    simp only [lintFile, lintFileWith] at h
    obtain ⟨j, hj, hmem⟩ := mem_lintLines h
    obtain ⟨r, hr, _, hsr⟩ := mem_scanLine hmem
    have hline : is.line = 1 + j := mem_scanLine_line hmem
    have hcol := mem_scanRule_column (LINT_RULES_sound r hr) hsr
    refine ⟨by omega, by omega, hcol.1, ?_⟩
    have e : is.line - 1 = j := by omega
    rw [e]
    exact hcol.2
  · exact lintLines_pairwise LINT_RULES_sound LINT_RULES_ruleIdx_mono
      fp (getExtension fp) 1 _

/-- Witness for C10 at a concrete scan. -/
theorem c10_position_invariant_witness :
    1 ≤ (varIssue "a.js").line ∧
    (varIssue "a.js").line ≤ (splitOnChar '\n' ("var x = 1;\n" : String).data).length ∧
    1 ≤ (varIssue "a.js").column ∧
    (varIssue "a.js").column ≤
      ((splitOnChar '\n' ("var x = 1;\n" : String).data).getD
        ((varIssue "a.js").line - 1) []).length :=
  (c10_position_invariant "a.js" "var x = 1;\n").1 (varIssue "a.js") (by decide)

/-- C3 counterexample: the claim says an identifier without a `.` admits
no language-scoped rule; but `getExtension` returns the whole (dotless)
identifier, so a file literally named `js` is treated as JavaScript and
the language-scoped var rule (registration index 0, whose scope is the
JS family) fires on it. -/
theorem c3_counterexample :
    ("js" : String).data.contains '.' = false ∧
    lintFile "js" "var x = 1;" = [varIssue "js"] ∧
    (LINT_RULES.map Rule.lang).getD 0 none = some ["js", "ts", "jsx", "tsx"] ∧
    (LINT_RULES.map Rule.issue).getD 0 "" =
      "Use \"let\" or \"const\" instead of \"var\"" := by
  refine ⟨by decide, by decide, by decide, by decide⟩

/-- C3 (amended): the language identifier is the lower-cased last
`.`-separated segment — for an identifier with no `.` the whole
lower-cased identifier; only when that string lies in no rule's language
list are all produced issues due to universal rules. -/
theorem c3_language_identifier :
    (∀ fp : String, '.' ∉ fp.data → getExtension fp = toLowerChars fp.data) ∧
    (∀ fp content : String,
      (∀ r ∈ LINT_RULES, ∀ langs, r.lang = some langs →
        String.mk (getExtension fp) ∉ langs) →
      ∀ is ∈ lintFile fp content,
        ∃ r ∈ LINT_RULES, r.lang = none ∧ is.issue = r.issue) := by
  constructor
  · intro fp h
    unfold getExtension
    rw [splitOnChar_of_not_mem h]
    rfl
  · intro fp content hscope is h
    obtain ⟨r, hr, happ, _, hi, _⟩ := mem_lintFileWith_rule h
    refine ⟨r, hr, ?_, hi⟩
    unfold applicableRule at happ
    cases hl : r.lang with
    | none => rfl
    | some langs =>
      rw [hl] at happ
      exact absurd (by simpa [List.contains] using happ) (hscope r hr langs hl)

/-- Witness for the amended C3: a dotless identifier whose lower-casing
is no language name only gets universal-rule issues. -/
theorem c3_language_identifier_witness :
    ∃ r ∈ LINT_RULES, r.lang = none ∧ (tabIssue "README").issue = r.issue :=
  c3_language_identifier.2 "README" "\tx"
    (by
      intro r hr langs heq
      simp only [LINT_RULES, List.mem_cons, List.not_mem_nil, or_false] at hr
      rcases hr with rfl | rfl | rfl | rfl | rfl | rfl | rfl | rfl | rfl | rfl | rfl | rfl <;>
        first
          | exact Option.noConfusion heq
          | (injection heq with e; subst e; decide))
    (tabIssue "README") (by decide)

/-- C2 counterexample: the claim says a traversal failure on one entry
is skipped and the run continues; but the `lint` action catches nothing,
so the run over `["gone", "a.js"]` aborts with the `statSync` failure of
`"gone"` and never lints the perfectly readable `"a.js"` — which on its
own yields one issue and one unit scanned. -/
theorem c2_counterexample :
    runPaths fs0 false 5 ["gone", "a.js"] = .error (LintErr.statFailed "gone") ∧
    runPaths fs0 false 5 ["a.js"] = .ok ([varIssue "a.js"], 1) :=
  ⟨rfl, rfl⟩

/-- C2 (amended): a traversal failure on any entry aborts the whole run
with that error — entries are processed in order until the first failing
`statSync`, whose exception propagates; entries after it are never
scanned and no result is produced. -/
theorem c2_traversal_failure (fs : Fs) (recursive : Bool) (fuel : Nat)
    (p : String) (pre post : List String)
    (hpre : ∀ q ∈ pre, ∃ c, fs q = some (FsNode.file c))
    (hp : fs p = none) :
    runPaths fs recursive fuel (pre ++ p :: post) =
      .error (LintErr.statFailed p) := by
  induction pre with
  | nil => simp [runPaths, hp]
  | cons q pre ih =>
    obtain ⟨c, hc⟩ := hpre q (List.mem_cons_self q pre)
    have hrec := ih fun q' hq' => hpre q' (List.mem_cons_of_mem _ hq')
    simp [runPaths, hc, hrec]

/-- Witness for the amended C2: a failure in the middle of the path list
aborts the run even though the entries before and after it are readable. -/
theorem c2_traversal_failure_witness :
    runPaths fs0 false 5 (["a.js"] ++ "gone" :: ["b.js"]) =
      .error (LintErr.statFailed "gone") :=
  c2_traversal_failure fs0 false 5 "gone" ["a.js"] ["b.js"]
    (by
      intro q hq
      simp only [List.mem_singleton] at hq
      subst hq
      exact ⟨"var x = 1;", rfl⟩)
    rfl

/-- Issues collected by the directory DFS all come from `lintFile`, so
none carries the error severity. -/
theorem lintDirGo_severity (fs : Fs) :
    ∀ (fuel : Nat) (paths : List String) (issues : List Issue) (n : Nat),
      lintDirGo fs fuel paths = .ok (issues, n) →
      ∀ is ∈ issues, is.severity ≠ Severity.error := by
  intro fuel
  induction fuel with
  | zero =>
    intro paths issues n h
    cases paths with
    | nil =>
      simp only [lintDirGo] at h
      obtain ⟨rfl, rfl⟩ : issues = [] ∧ n = 0 := by
        constructor <;> [exact (congrArg Prod.fst (Except.ok.inj h)).symm;
          exact (congrArg Prod.snd (Except.ok.inj h)).symm]
      simp
    | cons full rest => simp [lintDirGo] at h
  | succ m ih =>
    intro paths issues n h
    cases paths with
    | nil =>
      simp only [lintDirGo] at h
      obtain ⟨rfl, rfl⟩ : issues = [] ∧ n = 0 := by
        constructor <;> [exact (congrArg Prod.fst (Except.ok.inj h)).symm;
          exact (congrArg Prod.snd (Except.ok.inj h)).symm]
      simp
    | cons full rest =>
      simp only [lintDirGo] at h
      cases hfs : fs full with
      | none => rw [hfs] at h; simp at h
      | some node =>
        rw [hfs] at h
        cases node with
        | dir entries => exact ih _ _ _ h
        | file content =>
          dsimp only at h
          cases hrec : lintDirGo fs m rest with
          | error e => rw [hrec] at h; simp at h
          | ok bn =>
            obtain ⟨b, n'⟩ := bn
            rw [hrec] at h
            simp only at h
            obtain ⟨rfl, rfl⟩ : lintFile full content ++ b = issues ∧ n' + 1 = n := by
              constructor <;> [exact congrArg Prod.fst (Except.ok.inj h);
                exact congrArg Prod.snd (Except.ok.inj h)]
            intro is hmem
            rcases List.mem_append.mp hmem with hm | hm
            · exact lintFile_severity hm
            · exact ih _ _ _ hrec is hm

/-- Issues collected by the path loop all come from `lintFile`, so none
carries the error severity. -/
theorem runPaths_severity (fs : Fs) (recursive : Bool) (fuel : Nat) :
    ∀ (paths : List String) (issues : List Issue) (n : Nat),
      runPaths fs recursive fuel paths = .ok (issues, n) →
      ∀ is ∈ issues, is.severity ≠ Severity.error := by
  intro paths
  induction paths with
  | nil =>
    intro issues n h
    simp only [runPaths] at h
    obtain ⟨rfl, rfl⟩ : issues = [] ∧ n = 0 := by
      constructor <;> [exact (congrArg Prod.fst (Except.ok.inj h)).symm;
        exact (congrArg Prod.snd (Except.ok.inj h)).symm]
    simp
  | cons p rest ih =>
    intro issues n h
    simp only [runPaths] at h
    cases hfs : fs p with
    | none => rw [hfs] at h; simp at h
    | some node =>
      rw [hfs] at h
      cases node with
      | dir entries =>
        dsimp only at h
        by_cases hrecur : recursive
        · rw [if_pos hrecur] at h
          cases hdir : lintDirGo fs fuel (entries.map fun item => p ++ "/" ++ item) with
          | error e => rw [hdir] at h; simp at h
          | ok am =>
            obtain ⟨a, m⟩ := am
            rw [hdir] at h
            cases hrest : runPaths fs recursive fuel rest with
            | error e => rw [hrest] at h; simp at h
            | ok bn =>
              obtain ⟨b, n'⟩ := bn
              rw [hrest] at h
              simp only at h
              obtain ⟨rfl, rfl⟩ : a ++ b = issues ∧ m + n' = n := by
                constructor <;> [exact congrArg Prod.fst (Except.ok.inj h);
                  exact congrArg Prod.snd (Except.ok.inj h)]
              intro is hmem
              rcases List.mem_append.mp hmem with hm | hm
              · exact lintDirGo_severity fs _ _ _ _ hdir is hm
              · exact ih _ _ hrest is hm
        · rw [if_neg hrecur] at h
          exact ih _ _ h
      | file content =>
        dsimp only at h
        cases hrest : runPaths fs recursive fuel rest with
        | error e => rw [hrest] at h; simp at h
        | ok bn =>
          obtain ⟨b, n'⟩ := bn
          rw [hrest] at h
          simp only at h
          obtain ⟨rfl, rfl⟩ : lintFile p content ++ b = issues ∧ n' + 1 = n := by
            constructor <;> [exact congrArg Prod.fst (Except.ok.inj h);
              exact congrArg Prod.snd (Except.ok.inj h)]
          intro is hmem
          rcases List.mem_append.mp hmem with hm | hm
          · exact lintFile_severity hm
          · exact ih _ _ hrest is hm

/-- C4: for a run whose traversal completes, the lint exit code is 1
exactly when the error-severity count is positive and 0 otherwise; a run
whose issues are all warnings or info exits 0; and the pr action always
completes with code 0 — consistently, since no built-in rule carries the
error severity, its error count is always 0. -/
theorem c4_exit_signal :
    (∀ (fs : Fs) (recursive : Bool) (fuel : Nat) (paths : List String)
        (issues : List Issue) (n : Nat),
      runPaths fs recursive fuel paths = .ok (issues, n) →
      lintRunExit fs recursive fuel paths =
        .ok (if 0 < countErrorIssues issues then 1 else 0)) ∧
    (∀ (fs : Fs) (recursive : Bool) (fuel : Nat) (paths : List String)
        (issues : List Issue) (n : Nat),
      runPaths fs recursive fuel paths = .ok (issues, n) →
      (∀ is ∈ issues, is.severity = Severity.warning ∨ is.severity = Severity.info) →
      lintRunExit fs recursive fuel paths = .ok 0) ∧
    (∀ files : List (String × Option String),
      prRunExit files = 0 ∧ countErrorIssues (prIssues files) = 0) := by
  refine ⟨?_, ?_, ?_⟩
  · intro fs recursive fuel paths issues n h
    unfold lintRunExit
    rw [h]
  · intro fs recursive fuel paths issues n h hsev
    unfold lintRunExit
    rw [h]
    have hz : countErrorIssues issues = 0 := by
      unfold countErrorIssues
      rw [List.countP_eq_zero]
      intro is hmem
      rcases hsev is hmem with hw | hw <;> simp [hw]
    dsimp only
    rw [hz]
    rfl
  · intro files
    refine ⟨rfl, ?_⟩
    unfold countErrorIssues
    rw [List.countP_eq_zero]
    intro is hmem
    simp only [prIssues, List.mem_flatMap] at hmem
    obtain ⟨f, _, hm⟩ := hmem
    cases hpatch : f.2 with
    | none => rw [hpatch] at hm; simp at hm
    | some patch =>
      rw [hpatch] at hm
      have := lintFile_severity hm
      simpa using this

/-- Witness for C4 at a concrete completed run. -/
theorem c4_exit_signal_witness :
    lintRunExit fs0 false 5 ["a.js"] =
      .ok (if 0 < countErrorIssues [varIssue "a.js"] then 1 else 0) :=
  c4_exit_signal.1 fs0 false 5 ["a.js"] [varIssue "a.js"] 1 rfl
